import Mathlib

/-!
Verification of the distributed samplesort in `sorttest/ssort.hpp`
(namespace `ssort`).

The program is SPMD: `numprocs` MPI processes each hold one contiguous
segment of a global array and run the same five stages (local sort,
splitter selection, bucketing and all-to-all exchange, bucket sort,
redistribution back to the original layout).  We embed the global state
as a `List (List α)` — one entry per rank, in rank order — and each MPI
collective by its data movement: `MPI_Gather` concatenates the per-rank
blocks in rank order, `MPI_Alltoallv` with exclusive-prefix-sum
displacements sends the i-th consecutive chunk of the send buffer to
rank i and concatenates the received blocks in sender order.

The C++ comparator `comp` is a strict weak order; we model it by a
`LinearOrder` on the element type (the standard shallow embedding: under
a linear order the sorted permutation of a list is unique, so `std::sort`
is embedded exactly by any sorting function).  `std::sort(begin, end,
comp)` is embedded as `List.insertionSort (· ≤ ·)`.

Sizes and offsets are embedded as `Nat`.  The source stores them in
`int` / `unsigned` and documents (NOTES block, lines 23-34) the
assumption that the total element count fits an `int`; the width-bounded
`int` arithmetic of `exclusive_sum` and the `bucket_size` computation is
embedded separately, with explicit wrap-around modulo 2^32, for the
capacity-overflow analysis.

The index assertions of `get_splitters` (lines 80 and 98) are embedded
by `Option`: a read outside the valid range yields `none`.
-/

namespace SSort

open List

/-! ### interval_overlap (ssort.hpp lines 48-58)

`unsigned interval_overlap(unsigned l1, unsigned r1, unsigned l2, unsigned r2)`:
if `l2 < l1` the two ranges are swapped, then the overlap of `[l1,r1)`
and `[l2,r2)` is computed.  The branch conditions guard every
subtraction so that, for arguments with `l ≤ r`, no unsigned subtraction
underflows; hence `Nat` subtraction embeds the `unsigned` subtraction
exactly on such arguments (which is how all call sites use it). -/

def interval_overlap (l1 r1 l2 r2 : ℕ) : ℕ :=
  if l2 < l1 then
    -- the code swaps (l1, l2) and (r1, r2) and falls through
    if r2 ≤ l1 then 0
    else if r2 ≥ r1 then r1 - l1
    else r2 - l1
  else
    if r1 ≤ l2 then 0
    else if r1 ≥ r2 then r2 - l2
    else r1 - l2

/-! ### exclusive_sum and bucket_size with int-width arithmetic
(ssort.hpp lines 39-45 and 147-151)

`int *exclusive_sum(int *arr, size_t n)` computes `sums[0] = 0`,
`sums[i] = sums[i-1] + arr[i-1]` in `int` arithmetic.  `get_buckets`
then computes
`*bucket_size_ptr = recv_displacements[numprocs-1] + recv_split_counts[numprocs-1]`.
We embed `int` as ℤ with additions wrapping into `[-2^31, 2^31)`
(two's-complement overflow), to analyse what the arithmetic does when
the documented capacity assumption is violated. -/

/-- Wrap an integer into the 32-bit two's-complement range. -/
def intWrap (x : ℤ) : ℤ := (x + 2 ^ 31) % 2 ^ 32 - 2 ^ 31

/-- `exclusive_sum` loop: `sums[0] = 0; sums[i] = sums[i-1] + arr[i-1]`,
each addition performed in 32-bit `int` arithmetic. -/
def exsumGo (s : ℤ) : List ℤ → List ℤ
  | [] => []
  | a :: rest => s :: exsumGo (intWrap (s + a)) rest

def exclusive_sum (arr : List ℤ) : List ℤ := exsumGo 0 arr

/-- `bucket_size` as computed in `get_buckets` (lines 150-151):
the last receive displacement plus the last receive count, in `int`
arithmetic.  Equals the wrapped sum of all receive counts. -/
def bucket_size (recv : List ℤ) : ℤ :=
  intWrap ((exclusive_sum recv).getD (recv.length - 1) 0 +
           recv.getD (recv.length - 1) 0)

/-! ### Local sort -/

variable {α : Type} [LinearOrder α]

/-- `std::sort(begin, end, comp)`: sorted (non-decreasing) permutation
of the segment.  Under a linear order this is unique, so the embedding
is exact. -/
def localSort (l : List α) : List α := List.insertionSort (· ≤ ·) l

/-! ### Sampling loop of get_splitters (ssort.hpp lines 70-82)

```
const unsigned size = std::distance(begin, end);
const unsigned sample_size = numprocs - 1;
_Iter s_pos = begin;
const unsigned jump = size / (sample_size+1);
const unsigned leftover = size % (sample_size+1);
for (unsigned i = 0; i < sample_size; ++i) {
  s_pos += jump + (i < leftover);
  assert(begin <= s_pos-1 && s_pos-1 < end);
  sample[i] = *(s_pos-1);
}
```
`samplePosAux jump leftover pos i fuel` returns the successive values of
`s_pos` (as offsets from `begin`) for the remaining `fuel` iterations,
starting at offset `pos` with loop counter `i`.  The coordinator loop at
lines 95-100 has the same shape with `jump = sample_size` and
`leftover = 0`, so it reuses `samplePosAux`. -/

def samplePosAux (jump leftover : ℕ) : ℕ → ℕ → ℕ → List ℕ
  | _pos, _i, 0 => []
  | pos, i, fuel + 1 =>
    let pos' := pos + jump + (if i < leftover then 1 else 0)
    pos' :: samplePosAux jump leftover pos' (i + 1) fuel

/-- The `s_pos` offsets of the local sampling loop for a segment of size
`n` on `p` processes (`sample_size + 1 = p`). -/
def samplePositions (n p : ℕ) : List ℕ := samplePosAux (n / p) (n % p) 0 0 (p - 1)

/-- The `as_pos` values of the coordinator loop (lines 95-100):
`as_pos += sample_size` per iteration, `sample_size = p - 1` times. -/
def coordPositions (p : ℕ) : List ℕ := samplePosAux (p - 1) 0 0 0 (p - 1)

/-- `mapO f l`: run `f` on every element in order, failing if any call
fails.  Used to embed loops whose body contains an `assert` / a read
that can be out of range. -/
def mapO (f : β → Option γ) : List β → Option (List γ)
  | [] => some []
  | a :: l =>
    match f a, mapO f l with
    | some b, some bs => some (b :: bs)
    | _, _ => none

/-- The local sampling loop: read `*(s_pos - 1)` for each sample
position, with the assertion `begin <= s_pos-1 && s_pos-1 < end`
embedded as the range check `1 ≤ pos ∧ pos ≤ xs.length` (a failed
assertion yields `none`). -/
def localSamples [Inhabited α] (xs : List α) (p : ℕ) : Option (List α) :=
  mapO (fun pos =>
      if 1 ≤ pos ∧ pos ≤ xs.length then some (xs.getD (pos - 1) default)
      else none)
    (samplePositions xs.length p)

/-- `get_splitters` (lines 64-115) at the global level: gather all local
samples to the coordinator in rank order (`MPI_Gather`), sort them with
`comp`, re-sample at the `as_pos` positions (assertion
`0 <= as_pos-1 && as_pos-1 < numprocs*sample_size` embedded as the range
check), and broadcast the result.  `segs` are the locally sorted
segments of every rank. -/
def get_splitters [Inhabited α] (segs : List (List α)) : Option (List α) :=
  let p := segs.length
  match mapO (fun xs => localSamples xs p) segs with
  | none => none
  | some samples =>
    let allSorted := localSort samples.flatten
    mapO (fun pos =>
        if 1 ≤ pos ∧ pos ≤ allSorted.length then
          some (allSorted.getD (pos - 1) default)
        else none)
      (coordPositions p)

/-! ### Bucket partitioning in get_buckets (ssort.hpp lines 129-139)

```
_Iter s_pos = begin;
int i = 0;
while (i < num_splitters) {
  _Iter s_pos_next = std::lower_bound(s_pos, end, splitters[i], comp);
  send_split_counts[i] = std::distance(s_pos, s_pos_next);
  s_pos = s_pos_next;
  ++i;
}
send_split_counts[num_splitters] = std::distance(s_pos, end);
```
`std::lower_bound(first, last, v, comp)` on a range partitioned with
respect to `comp(·, v)` returns the first position whose element is not
`< v`; on a sorted range that offset is the length of the maximal
prefix of elements `< v`. -/

/-- Offset returned by `std::lower_bound(xs, v)` relative to the start
of the (sorted) range `xs`. -/
def lower_bound (xs : List α) (v : α) : ℕ :=
  (xs.takeWhile (fun x => decide (x < v))).length

/-- The per-destination counts `send_split_counts`. -/
def send_split_counts : List α → List α → List ℕ
  | xs, [] => [xs.length]
  | xs, s :: rest =>
    lower_bound xs s :: send_split_counts (xs.drop (lower_bound xs s)) rest

/-- The consecutive chunks of the (sorted) segment delimited by the
successive `lower_bound` positions; chunk `i` is the block of
`send_split_counts[i]` elements that `MPI_Alltoallv` (lines 155-157)
sends to rank `i` (send displacements are the exclusive prefix sums of
`send_split_counts`, so the blocks are exactly these chunks). -/
def chunks : List α → List α → List (List α)
  | xs, [] => [xs]
  | xs, s :: rest =>
    xs.take (lower_bound xs s) :: chunks (xs.drop (lower_bound xs s)) rest

/-- Destination bucket of an element: the smallest index `i` with
`x < splitters[i]` under the comparator, and `splitters.length` (the
last bucket) if there is none. -/
def bucket_dest (sp : List α) (x : α) : ℕ := sp.findIdx (fun s => decide (x < s))

/-- The bucket each rank holds after the all-to-all exchange of
`get_buckets`: rank `i` receives, concatenated in sender-rank order,
the `i`-th chunk of every rank's locally sorted segment. -/
def buckets (segs : List (List α)) (sp : List α) : List (List α) :=
  (List.range segs.length).map
    (fun i => (segs.map (fun xs => (chunks xs sp).getD i [])).flatten)

/-! ### redistribute (ssort.hpp lines 170-224)

All ranks exchange `(original size, bucket size)` pairs
(`MPI_Allgather`).  Rank `j` computes, for every destination `i`,
`send_counts[i] = interval_overlap(curr_orig_begin, curr_orig_end,
global_my_bucket_begin, global_my_bucket_end)` — the overlap of rank
`i`'s range on the cumulative-original-size numberline with rank `j`'s
range on the cumulative-bucket-size numberline — and symmetrically
`recv_counts`.  The `MPI_Alltoallv` at lines 215-217 then sends the
consecutive blocks of rank `j`'s bucket (delimited by the exclusive
prefix sums of `send_counts`) and writes the blocks received from peers
`0, …, p-1`, in that order, into the front of the caller's original
buffer; any remaining tail of the buffer keeps its previous contents. -/

/-- Cumulative offset: `pre sizes k = sizes[0] + ⋯ + sizes[k-1]`, the
value accumulated by the `curr_*_begin` loops. -/
def pre (sizes : List ℕ) (k : ℕ) : ℕ := ((sizes.take k).sum)

/-- `send_counts[i]` as computed on rank `j` (lines 198-203). -/
def sendCountR (oS bS : List ℕ) (j i : ℕ) : ℕ :=
  interval_overlap (pre oS i) (pre oS (i + 1)) (pre bS j) (pre bS (j + 1))

/-- `recv_counts[i]` as computed on rank `k` (lines 205-209): the
overlap of peer `i`'s bucket range with rank `k`'s original range. -/
def recvCountR (oS bS : List ℕ) (k i : ℕ) : ℕ :=
  interval_overlap (pre bS i) (pre bS (i + 1)) (pre oS k) (pre oS (k + 1))

/-- `send_displacements[k]` on rank `j`: exclusive prefix sum of the
send counts (line 212). -/
def sendDispl (oS bS : List ℕ) (j k : ℕ) : ℕ :=
  ((List.range k).map (sendCountR oS bS j)).sum

/-- The block of rank `j`'s bucket sent to rank `k`. -/
def blockFor (bs : List (List α)) (oS : List ℕ) (j k : ℕ) : List α :=
  ((bs.getD j []).drop (sendDispl oS (bs.map List.length) j k)).take
    (sendCountR oS (bs.map List.length) j k)

/-- `redistribute`: rank `k`'s original buffer receives the blocks from
senders `0, …, p-1` in order; the tail beyond the received data keeps
the buffer's previous contents (`segs` are the current contents of the
original buffers, whose lengths are the original sizes). -/
def redistribute (bs segs : List (List α)) : List (List α) :=
  let oS := segs.map List.length
  (List.range segs.length).map (fun k =>
    let received := ((List.range bs.length).map (fun j => blockFor bs oS j k)).flatten
    received ++ (segs.getD k []).drop received.length)

/-- Verification device (not part of the source): the part of a block
`l`, occupying global positions `[t, t + l.length)` on a numberline,
that falls inside the window `[a, b)` of that numberline.  Used to state
what the redistribution exchange moves. -/
def windowOf {γ : Type} (l : List γ) (t a b : ℕ) : List γ :=
  (l.drop (a - t)).take (min b (t + l.length) - max a t)

/-! ### samplesort (ssort.hpp lines 228-255) -/

/-- The whole five-stage pipeline, as one function from the global
state (the per-rank segments, in rank order) to the global state after
the call.  `none` embeds a failed assertion (out-of-range read) inside
`get_splitters` on some rank. -/
def samplesort [Inhabited α] (procs : List (List α)) : Option (List (List α)) :=
  let sorted := procs.map localSort
  if procs.length ≤ 1 then some sorted
  else
    match get_splitters sorted with
    | none => none
    | some sp =>
      some (redistribute ((buckets sorted sp).map localSort) sorted)

/-! ## Basic lemmas -/

/-- Closed form of `interval_overlap` for well-formed ranges: the length
of the intersection of `[l1,r1)` and `[l2,r2)` (truncated subtraction
makes the disjoint case 0). -/
theorem interval_overlap_eq {l1 r1 l2 r2 : ℕ} (h1 : l1 ≤ r1) (h2 : l2 ≤ r2) :
    interval_overlap l1 r1 l2 r2 = min r1 r2 - max l1 l2 := by
  unfold interval_overlap
  split <;> split <;> (try split) <;> omega

/-- `intWrap` is the identity on the representable range. -/
theorem intWrap_eq_self {x : ℤ} (h1 : -2 ^ 31 ≤ x) (h2 : x < 2 ^ 31) :
    intWrap x = x := by
  unfold intWrap
  omega

/-- On nonnegative counts whose (exact) total is below `2^31`, no `int`
addition in `exclusive_sum` wraps: the last displacement plus the last
count is the exact total. -/
theorem exsumGo_last (tail : List ℤ) : ∀ a s : ℤ, 0 ≤ s → 0 ≤ a →
    (∀ x ∈ tail, 0 ≤ x) → s + a + tail.sum < 2 ^ 31 →
    (exsumGo s (a :: tail)).getD ((a :: tail).length - 1) 0 +
      (a :: tail).getD ((a :: tail).length - 1) 0 = s + (a :: tail).sum := by
  induction tail with
  | nil =>
    intro a s _ _ _ _
    simp [exsumGo]
  | cons b tail ih =>
    intro a s hs ha hx hlt
    have hb : 0 ≤ b := hx b (List.mem_cons_self b tail)
    have htail : ∀ x ∈ tail, 0 ≤ x := fun x h => hx x (List.mem_cons_of_mem b h)
    have hsumt : 0 ≤ tail.sum := List.sum_nonneg htail
    simp only [List.sum_cons] at hlt
    have hw : intWrap (s + a) = s + a := intWrap_eq_self (by omega) (by omega)
    have IH := ih b (s + a) (by omega) hb htail (by omega)
    simp only [exsumGo, hw, List.length_cons, Nat.add_sub_cancel,
      List.getD_cons_succ, List.sum_cons] at IH ⊢
    omega

/-- Under the program's documented capacity assumption (nonnegative
counts, total below `2^31`), the `bucket_size` computation is exact. -/
theorem bucketSize_exact (arr : List ℤ) (hnn : ∀ a ∈ arr, 0 ≤ a)
    (hlt : arr.sum < 2 ^ 31) : bucket_size arr = arr.sum := by
  cases arr with
  | nil => simp [bucket_size, exclusive_sum, exsumGo, intWrap]
  | cons a rest =>
    have ha : 0 ≤ a := hnn a (List.mem_cons_self a rest)
    have hrest : ∀ x ∈ rest, 0 ≤ x := fun x h => hnn x (List.mem_cons_of_mem a h)
    have hsum : 0 ≤ (a :: rest).sum := List.sum_nonneg hnn
    have h := exsumGo_last rest a 0 le_rfl ha hrest
      (by simp only [List.sum_cons] at hlt; omega)
    unfold bucket_size exclusive_sum
    rw [h]
    rw [zero_add]
    exact intWrap_eq_self (by omega) (by omega)

/-! ## Closed form of the sampling positions -/

/-- The successive `s_pos` offsets in closed form: after `k+1`
iterations the offset is `pos + (k+1)·jump` plus one for every slot
among the first `k+1` that got a leftover element. -/
theorem samplePosAux_eq (jump lo : ℕ) :
    ∀ (fuel pos i : ℕ), samplePosAux jump lo pos i fuel =
      (List.range fuel).map
        (fun k => pos + (k + 1) * jump + (min (i + k + 1) lo - min i lo)) := by
  intro fuel
  induction fuel with
  | zero => intro pos i; rfl
  | succ fuel ih =>
    intro pos i
    rw [List.range_succ_eq_map]
    simp only [samplePosAux, List.map_cons, List.map_map]
    rw [List.cons_eq_cons]
    constructor
    · split <;> omega
    · rw [ih]
      apply List.map_congr_left
      intro k _
      simp only [Function.comp_apply, Nat.succ_eq_add_one]
      have hmul : (k + 1 + 1) * jump = (k + 1) * jump + jump := by
        rw [Nat.succ_mul]
      split <;> omega

/-- Local sampling positions: the `i`-th of the `p-1` samples is taken
at offset `(i+1)·(n/p) + min (i+1) (n mod p)` (one extra step for each
of the earliest `n mod p` slots), and the element read is the one just
before that offset. -/
theorem samplePositions_eq (n p : ℕ) :
    samplePositions n p =
      (List.range (p - 1)).map (fun i => (i + 1) * (n / p) + min (i + 1) (n % p)) := by
  unfold samplePositions
  rw [samplePosAux_eq]
  apply List.map_congr_left
  intro k _
  omega

/-- Coordinator re-sampling positions: the `i`-th global splitter is
read at index `(i+1)·(p-1) - 1` of the sorted sample array. -/
theorem coordPositions_eq (p : ℕ) :
    coordPositions p = (List.range (p - 1)).map (fun i => (i + 1) * (p - 1)) := by
  unfold coordPositions
  rw [samplePosAux_eq]
  apply List.map_congr_left
  intro k _
  omega

/-! ## Bucketing lemmas: lower_bound, chunks, destinations -/

theorem take_takeWhile_length (p : α → Bool) :
    ∀ xs : List α, xs.take (xs.takeWhile p).length = xs.takeWhile p := by
  intro xs
  induction xs with
  | nil => rfl
  | cons a l ih =>
    cases h : p a with
    | true => simp [List.takeWhile_cons, h, ih]
    | false => simp [List.takeWhile_cons, h]

theorem drop_takeWhile_length (p : α → Bool) :
    ∀ xs : List α, xs.drop (xs.takeWhile p).length = xs.dropWhile p := by
  intro xs
  induction xs with
  | nil => rfl
  | cons a l ih =>
    cases h : p a with
    | true => simp [List.takeWhile_cons, List.dropWhile_cons, h, ih]
    | false => simp [List.takeWhile_cons, List.dropWhile_cons, h]

theorem take_lower_bound (xs : List α) (v : α) :
    xs.take (lower_bound xs v) = xs.takeWhile (fun x => decide (x < v)) := by
  unfold lower_bound
  exact take_takeWhile_length _ _

theorem drop_lower_bound (xs : List α) (v : α) :
    xs.drop (lower_bound xs v) = xs.dropWhile (fun x => decide (x < v)) := by
  unfold lower_bound
  exact drop_takeWhile_length _ _

theorem lower_bound_le (xs : List α) (v : α) : lower_bound xs v ≤ xs.length :=
  (List.takeWhile_sublist _).length_le

/-- On a sorted segment, every element the `dropWhile` part keeps is at
or beyond the `lower_bound` value. -/
theorem le_of_mem_dropWhile_lt {xs : List α} {v x : α}
    (hs : xs.Sorted (· ≤ ·))
    (hx : x ∈ xs.dropWhile (fun y => decide (y < v))) : v ≤ x := by
  induction xs with
  | nil => cases hx
  | cons a l ih =>
    cases h : decide (a < v) with
    | true =>
      simp only [List.dropWhile_cons, h] at hx
      rw [if_pos trivial] at hx
      exact ih hs.of_cons hx
    | false =>
      simp only [List.dropWhile_cons, h] at hx
      rw [if_neg (by simp)] at hx
      have hav : v ≤ a := le_of_not_lt (of_decide_eq_false h)
      rcases List.mem_cons.mp hx with rfl | hmem
      · exact hav
      · exact le_trans hav (List.rel_of_sorted_cons hs x hmem)

/-- On a sorted segment, `std::lower_bound` returns the number of
elements strictly below the probe value. -/
theorem lower_bound_sorted {xs : List α} {v : α} (hs : xs.Sorted (· ≤ ·)) :
    lower_bound xs v = xs.countP (fun x => decide (x < v)) := by
  induction xs with
  | nil => rfl
  | cons a l ih =>
    cases h : decide (a < v) with
    | true =>
      unfold lower_bound at ih ⊢
      rw [List.countP_cons]
      simp only [List.takeWhile_cons, h]
      rw [if_pos trivial, List.length_cons, ih hs.of_cons, if_pos trivial]
    | false =>
      have hav : v ≤ a := le_of_not_lt (of_decide_eq_false h)
      unfold lower_bound
      simp only [List.takeWhile_cons, h]
      rw [if_neg (by simp), List.length_nil, eq_comm, List.countP_eq_zero]
      intro x hx
      rcases List.mem_cons.mp hx with rfl | hmem
      · simp [h]
      · have : a ≤ x := List.rel_of_sorted_cons hs x hmem
        simp only [decide_eq_true_eq]
        exact not_lt.mpr (le_trans hav this)

theorem bucket_dest_cons (s : α) (rest : List α) (x : α) :
    bucket_dest (s :: rest) x = if x < s then 0 else bucket_dest rest x + 1 := by
  unfold bucket_dest
  rw [List.findIdx_cons]
  cases h : decide (x < s) with
  | true => simp only [h, cond_true, if_pos (of_decide_eq_true h)]
  | false => simp only [h, cond_false, if_neg (of_decide_eq_false h)]

theorem bucket_dest_le_length (sp : List α) (x : α) :
    bucket_dest sp x ≤ sp.length :=
  List.findIdx_le_length _

/-- If the destination index is interior, the element is strictly below
the splitter at that index. -/
theorem lt_get_bucket_dest {sp : List α} {x : α}
    (h : bucket_dest sp x < sp.length) :
    x < sp.get ⟨bucket_dest sp x, h⟩ := by
  have := @List.findIdx_getElem _ (fun s => decide (x < s)) sp h
  simpa using this

/-- Below the destination index no splitter is strictly above the
element. -/
theorem not_lt_get_of_lt_bucket_dest {sp : List α} {x : α} {i : ℕ}
    (h : i < bucket_dest sp x) :
    ¬ x < sp.get ⟨i, lt_of_lt_of_le h (List.findIdx_le_length _)⟩ := by
  have := List.not_of_lt_findIdx h
  simpa using this

/-- Elements destined for an earlier bucket never exceed elements
destined for a later one (for any splitter vector). -/
theorem le_of_bucket_dest_lt {sp : List α} {x y : α}
    (h : bucket_dest sp x < bucket_dest sp y) : x ≤ y := by
  have hx : bucket_dest sp x < sp.length :=
    lt_of_lt_of_le h (List.findIdx_le_length _)
  have h1 : x < sp.get ⟨bucket_dest sp x, hx⟩ := lt_get_bucket_dest hx
  have h2 := @not_lt_get_of_lt_bucket_dest _ _ sp y (bucket_dest sp x) h
  exact le_of_lt (lt_of_lt_of_le h1 (le_of_not_lt h2))

theorem chunks_length (xs sp : List α) : (chunks xs sp).length = sp.length + 1 := by
  induction sp generalizing xs with
  | nil => rfl
  | cons s rest ih => simp [chunks, ih]

/-- The chunks tile the segment: concatenated in order they give the
segment back. -/
theorem chunks_flatten (xs sp : List α) : (chunks xs sp).flatten = xs := by
  induction sp generalizing xs with
  | nil => simp [chunks]
  | cons s rest ih => simp [chunks, ih]

/-- `send_split_counts` are exactly the chunk lengths. -/
theorem send_split_counts_eq (xs sp : List α) :
    send_split_counts xs sp = (chunks xs sp).map List.length := by
  induction sp generalizing xs with
  | nil => rfl
  | cons s rest ih =>
    simp [send_split_counts, chunks, ih, List.length_take,
      Nat.min_eq_left (lower_bound_le xs s)]

/-- The bucket counts sum to the local segment size. -/
theorem sum_send_split_counts (xs sp : List α) :
    (send_split_counts xs sp).sum = xs.length := by
  rw [send_split_counts_eq]
  have := congrArg List.length (chunks_flatten xs sp)
  simpa [List.length_flatten] using this

theorem mem_of_mem_chunks {xs sp : List α} {i : ℕ} {x : α}
    (h : x ∈ (chunks xs sp).getD i []) : x ∈ xs := by
  induction sp generalizing xs i with
  | nil =>
    cases i with
    | zero => simpa [chunks] using h
    | succ j =>
      simp only [chunks, List.getD_cons_succ] at h
      rw [List.getD] at h
      simp at h
  | cons s rest ih =>
    cases i with
    | zero =>
      simp only [chunks, List.getD_cons_zero] at h
      exact List.mem_of_mem_take h
    | succ j =>
      simp only [chunks, List.getD_cons_succ] at h
      exact List.mem_of_mem_drop (ih h)

/-- Every element of chunk `i` of a sorted segment has destination
bucket `i`. -/
theorem bucket_dest_of_mem_chunks {xs sp : List α} {i : ℕ} {x : α}
    (hs : xs.Sorted (· ≤ ·)) (h : x ∈ (chunks xs sp).getD i []) :
    bucket_dest sp x = i := by
  induction sp generalizing xs i with
  | nil =>
    cases i with
    | zero => rfl
    | succ j =>
      simp only [chunks, List.getD_cons_succ] at h
      rw [List.getD] at h
      simp at h
  | cons s rest ih =>
    cases i with
    | zero =>
      simp only [chunks, List.getD_cons_zero, take_lower_bound] at h
      have hb := List.mem_takeWhile_imp h
      have : x < s := of_decide_eq_true hb
      rw [bucket_dest_cons, if_pos this]
    | succ j =>
      simp only [chunks, List.getD_cons_succ, drop_lower_bound] at h
      have hs2 : (xs.dropWhile (fun y => decide (y < s))).Sorted (· ≤ ·) :=
        List.Pairwise.sublist (List.dropWhile_sublist _) hs
      have hmem : x ∈ xs.dropWhile (fun y => decide (y < s)) :=
        mem_of_mem_chunks h
      have hsx : s ≤ x := le_of_mem_dropWhile_lt hs hmem
      rw [bucket_dest_cons, if_neg (not_lt.mpr hsx), ih hs2 h]

/-- Bucket-count characterisation on a sorted segment: the `i`-th count
is the number of elements whose destination bucket is `i`. -/
theorem send_split_counts_countP {xs : List α} (sp : List α)
    (hs : xs.Sorted (· ≤ ·)) :
    send_split_counts xs sp =
      (List.range (sp.length + 1)).map
        (fun i => xs.countP (fun x => decide (bucket_dest sp x = i))) := by
  induction sp generalizing xs with
  | nil =>
    rw [show List.range (([] : List α).length + 1) = [0] from rfl]
    simp [send_split_counts, bucket_dest]
  | cons s rest ih =>
    simp only [List.length_cons]
    rw [List.range_succ_eq_map]
    simp only [send_split_counts, List.map_cons, List.map_map]
    rw [List.cons_eq_cons]
    have hs2 : (xs.dropWhile (fun y => decide (y < s))).Sorted (· ≤ ·) :=
      List.Pairwise.sublist (List.dropWhile_sublist _) hs
    constructor
    · rw [lower_bound_sorted hs]
      apply List.countP_congr
      intro x _
      rw [bucket_dest_cons]
      by_cases hx : x < s
      · simp [hx]
      · simp [hx]
    · rw [drop_lower_bound, ih hs2]
      apply List.map_congr_left
      intro j _
      simp only [Function.comp_apply, Nat.succ_eq_add_one]
      conv_rhs =>
        rw [← List.takeWhile_append_dropWhile (fun y => decide (y < s)) xs]
      rw [List.countP_append]
      have h1 : (xs.takeWhile (fun y => decide (y < s))).countP
          (fun x => decide (bucket_dest (s :: rest) x = j + 1)) = 0 := by
        rw [List.countP_eq_zero]
        intro x hx
        have hb := List.mem_takeWhile_imp hx
        have : x < s := of_decide_eq_true hb
        simp [bucket_dest_cons, this]
      have h2 : (xs.dropWhile (fun y => decide (y < s))).countP
          (fun x => decide (bucket_dest rest x = j)) =
          (xs.dropWhile (fun y => decide (y < s))).countP
            (fun x => decide (bucket_dest (s :: rest) x = j + 1)) := by
        apply List.countP_congr
        intro x hx
        have hsx : s ≤ x := le_of_mem_dropWhile_lt hs hx
        rw [bucket_dest_cons, if_neg (not_lt.mpr hsx)]
        simp
      rw [h2, h1, Nat.zero_add]

/-! ## Cumulative-offset lemmas -/

theorem pre_zero (l : List ℕ) : pre l 0 = 0 := rfl

theorem pre_succ (l : List ℕ) (k : ℕ) : pre l (k + 1) = pre l k + l.getD k 0 := by
  unfold pre
  rw [List.take_succ, List.sum_append]
  congr 1
  cases h : l[k]? with
  | none => simp [h]
  | some v => simp [h]

theorem pre_mono (l : List ℕ) (k : ℕ) : pre l k ≤ pre l (k + 1) := by
  rw [pre_succ]
  omega

theorem pre_le_sum (l : List ℕ) (k : ℕ) : pre l k ≤ l.sum := by
  conv_rhs => rw [← List.take_append_drop k l]
  rw [List.sum_append]
  exact Nat.le_add_right _ _

theorem pre_length (l : List ℕ) : pre l l.length = l.sum := by
  unfold pre
  rw [List.take_length]

theorem pre_cons (s : ℕ) (rest : List ℕ) (k : ℕ) :
    pre (s :: rest) (k + 1) = s + pre rest k := by
  unfold pre
  simp [List.take_succ_cons]

theorem getD_map_length {γ : Type} (bs : List (List γ)) (j : ℕ) (hj : j < bs.length) :
    (bs.map List.length).getD j 0 = (bs.getD j []).length := by
  simp only [List.getD_eq_getElem?_getD, List.getElem?_map, List.getElem?_eq_getElem hj]
  simp

/-! ## The window view of the redistribution exchange -/

/-- Splitting a block splits its window. -/
theorem windowOf_append {γ : Type} (u v : List γ) (t a b : ℕ) (hab : a ≤ b) :
    windowOf (u ++ v) t a b =
      windowOf u t a b ++ windowOf v (t + u.length) a b := by
  unfold windowOf
  rw [List.drop_append_eq_append_drop, List.take_append_eq_append_take]
  congr 1
  · rw [List.take_eq_take]
    simp only [List.length_drop, List.length_append]
    omega
  · have hd : a - t - u.length = a - (t + u.length) := by omega
    rw [hd, List.take_eq_take]
    simp only [List.length_drop, List.length_append]
    omega

/-- A window covering the whole block returns the block. -/
theorem windowOf_full {γ : Type} (l : List γ) (t a b : ℕ)
    (h1 : a ≤ t) (h2 : t + l.length ≤ b) : windowOf l t a b = l := by
  unfold windowOf
  rw [Nat.sub_eq_zero_of_le h1, List.drop_zero]
  rw [Nat.min_eq_right h2, Nat.max_eq_right h1]
  exact List.take_of_length_le (by omega)

/-- An empty window returns nothing. -/
theorem windowOf_empty {γ : Type} (l : List γ) (t a b : ℕ) (h : b ≤ a) :
    windowOf l t a b = [] := by
  unfold windowOf
  rw [List.take_eq_nil_iff]
  left
  omega

/-- Sum of the overlaps of a fixed window `[a, b)` with the consecutive
intervals delimited by `sizes` (starting at offset `t`) equals the
overlap of the window with the union interval. -/
theorem sum_window_overlap (sizes : List ℕ) :
    ∀ (t a b : ℕ), a ≤ b →
      ((List.range sizes.length).map
        (fun i => min (t + pre sizes (i + 1)) b - max (t + pre sizes i) a)).sum
        = min (t + sizes.sum) b - max t a := by
  induction sizes with
  | nil =>
    intro t a b hab
    simp only [List.length_nil, List.range_zero, List.map_nil, List.sum_nil,
      List.sum_nil]
    omega
  | cons s rest ih =>
    intro t a b hab
    rw [List.length_cons, List.range_succ_eq_map]
    simp only [List.map_cons, List.map_map, List.sum_cons]
    have e2 : List.map
        ((fun i => min (t + pre (s :: rest) (i + 1)) b -
          max (t + pre (s :: rest) i) a) ∘ Nat.succ) (List.range rest.length) =
        List.map (fun i => min ((t + s) + pre rest (i + 1)) b -
          max ((t + s) + pre rest i) a) (List.range rest.length) := by
      apply List.map_congr_left
      intro i _
      simp only [Function.comp_apply, Nat.succ_eq_add_one, pre_cons]
      have h1 : t + (s + pre rest (i + 1)) = t + s + pre rest (i + 1) := by omega
      have h2 : t + (s + pre rest i) = t + s + pre rest i := by omega
      rw [h1, h2]
    rw [e2, ih (t + s) a b hab]
    have h1 : pre (s :: rest) 1 = s + pre rest 0 := pre_cons s rest 0
    rw [h1]
    simp only [pre_zero, List.sum_cons]
    omega

/-- `send_counts` in closed (min/max) form. -/
theorem sendCountR_eq (oS bS : List ℕ) (j i : ℕ) :
    sendCountR oS bS j i =
      min (pre oS (i + 1)) (pre bS (j + 1)) - max (pre oS i) (pre bS j) :=
  interval_overlap_eq (pre_mono oS i) (pre_mono bS j)

/-- `recv_counts` in closed (min/max) form. -/
theorem recvCountR_eq (oS bS : List ℕ) (k i : ℕ) :
    recvCountR oS bS k i =
      min (pre bS (i + 1)) (pre oS (k + 1)) - max (pre bS i) (pre oS k) :=
  interval_overlap_eq (pre_mono bS i) (pre_mono oS k)

/-- The receive counts computed on rank `k` sum to rank `k`'s original
segment size (given the count invariant that bucket sizes and original
sizes have the same total). -/
theorem recvCount_sum (oS bS : List ℕ) (k : ℕ) (hk : k < oS.length)
    (hsum : bS.sum = oS.sum) :
    ((List.range bS.length).map (recvCountR oS bS k)).sum = oS.getD k 0 := by
  have hc : List.map (recvCountR oS bS k) (List.range bS.length) =
      List.map (fun i => min (0 + pre bS (i + 1)) (pre oS (k + 1)) -
        max (0 + pre bS i) (pre oS k)) (List.range bS.length) := by
    apply List.map_congr_left
    intro i _
    rw [recvCountR_eq, Nat.zero_add, Nat.zero_add]
  rw [hc, sum_window_overlap bS 0 (pre oS k) (pre oS (k + 1)) (pre_mono oS k)]
  have h1 : pre oS (k + 1) ≤ oS.sum := pre_le_sum _ _
  have h2 := pre_succ oS k
  have h3 : pre oS k ≤ pre oS (k + 1) := pre_mono oS k
  rw [Nat.zero_add, hsum, Nat.max_eq_right (Nat.zero_le _)]
  omega

/-- `send_displacements` in closed form: the part of rank `j`'s bucket
range that lies before rank `k`'s original range. -/
theorem sendDispl_eq (oS bS : List ℕ) (j k : ℕ) (hk : k ≤ oS.length) :
    sendDispl oS bS j k = min (pre oS k) (pre bS (j + 1)) - pre bS j := by
  unfold sendDispl
  rw [show List.range k = List.range ((oS.take k).length) from by
    rw [List.length_take, Nat.min_eq_left hk]]
  have hco : List.map (sendCountR oS bS j) (List.range ((oS.take k).length)) =
      List.map (fun i => min (0 + pre (oS.take k) (i + 1)) (pre bS (j + 1)) -
        max (0 + pre (oS.take k) i) (pre bS j)) (List.range ((oS.take k).length)) := by
    apply List.map_congr_left
    intro i hi
    have hik : i < k := by
      have := List.mem_range.mp hi
      rw [List.length_take] at this
      omega
    have e1 : pre (oS.take k) (i + 1) = pre oS (i + 1) := by
      unfold pre
      rw [List.take_take, Nat.min_eq_left (by omega)]
    have e2 : pre (oS.take k) i = pre oS i := by
      unfold pre
      rw [List.take_take, Nat.min_eq_left (by omega)]
    rw [sendCountR_eq, e1, e2, Nat.zero_add, Nat.zero_add]
  rw [hco, sum_window_overlap (oS.take k) 0 (pre bS j) (pre bS (j + 1)) (pre_mono bS j)]
  have : (0 : ℕ) + (oS.take k).sum = pre oS k := by
    unfold pre
    omega
  rw [this, Nat.max_eq_right (Nat.zero_le _)]

/-- The block rank `j` sends to rank `k` is the window of rank `j`'s
bucket over rank `k`'s original range. -/
theorem blockFor_eq_windowOf (bs : List (List α)) (oS : List ℕ) (j k : ℕ)
    (hj : j < bs.length) (hk : k ≤ oS.length) :
    blockFor bs oS j k =
      windowOf (bs.getD j []) (pre (bs.map List.length) j)
        (pre oS k) (pre oS (k + 1)) := by
  unfold blockFor windowOf
  have hm : pre (bs.map List.length) (j + 1) =
      pre (bs.map List.length) j + (bs.getD j []).length := by
    rw [pre_succ, getD_map_length bs j hj]
  rw [sendCountR_eq, sendDispl_eq oS (bs.map List.length) j k hk, hm]
  have hmono := pre_mono oS k
  by_cases hc : pre oS k ≤ pre (bs.map List.length) j + (bs.getD j []).length
  · have hd : min (pre oS k) (pre (bs.map List.length) j + (bs.getD j []).length) -
        pre (bs.map List.length) j = pre oS k - pre (bs.map List.length) j := by
      omega
    rw [hd]
  · have h1 : min (pre oS (k + 1))
        (pre (bs.map List.length) j + (bs.getD j []).length) -
        max (pre oS k) (pre (bs.map List.length) j) = 0 := by
      omega
    rw [h1]
    simp

/-- The per-sender windows over a fixed range, concatenated in sender
order, give the window of the concatenation. -/
theorem flatten_windowOf (bs : List (List α)) :
    ∀ (t a b : ℕ), a ≤ b →
      ((List.range bs.length).map
        (fun j => windowOf (bs.getD j []) (t + pre (bs.map List.length) j) a b)).flatten
        = windowOf bs.flatten t a b := by
  induction bs with
  | nil =>
    intro t a b hab
    simp [windowOf]
  | cons l rest ih =>
    intro t a b hab
    rw [List.length_cons, List.range_succ_eq_map]
    simp only [List.map_cons, List.map_map, List.flatten_cons, List.getD_cons_zero]
    have e1 : t + pre (l.length :: rest.map List.length) 0 = t := by
      simp [pre_zero]
    have e2 : List.map
        ((fun j => windowOf ((l :: rest).getD j [])
          (t + pre (l.length :: rest.map List.length) j) a b) ∘ Nat.succ)
          (List.range rest.length) =
        List.map (fun j => windowOf (rest.getD j [])
          ((t + l.length) + pre (rest.map List.length) j) a b)
          (List.range rest.length) := by
      apply List.map_congr_left
      intro j _
      simp only [Function.comp_apply, Nat.succ_eq_add_one, List.getD_cons_succ]
      have : t + pre (l.length :: rest.map List.length) (j + 1) =
          (t + l.length) + pre (rest.map List.length) j := by
        rw [pre_cons]
        omega
      rw [this]
    rw [e1, e2, ih (t + l.length) a b hab,
      ← windowOf_append l rest.flatten t a b hab]

/-- The blocks rank `k` receives, concatenated in sender order, are the
window of the concatenated buckets over rank `k`'s original range. -/
theorem received_eq (bs : List (List α)) (oS : List ℕ) (k : ℕ) (hk : k ≤ oS.length) :
    ((List.range bs.length).map (fun j => blockFor bs oS j k)).flatten =
      windowOf bs.flatten 0 (pre oS k) (pre oS (k + 1)) := by
  have hcong : List.map (fun j => blockFor bs oS j k) (List.range bs.length) =
      List.map (fun j => windowOf (bs.getD j []) (0 + pre (bs.map List.length) j)
        (pre oS k) (pre oS (k + 1))) (List.range bs.length) := by
    apply List.map_congr_left
    intro j hj
    rw [blockFor_eq_windowOf bs oS j k (List.mem_range.mp hj) hk, Nat.zero_add]
  rw [hcong, flatten_windowOf bs 0 (pre oS k) (pre oS (k + 1)) (pre_mono oS k)]

theorem windowOf_zero {γ : Type} (G : List γ) (a b : ℕ) (hb : b ≤ G.length) :
    windowOf G 0 a b = (G.drop a).take (b - a) := by
  unfold windowOf
  rw [Nat.sub_zero, Nat.zero_add, Nat.max_zero, Nat.min_eq_left hb]

theorem windowOf_zero_length {γ : Type} (G : List γ) (a b : ℕ)
    (hb : b ≤ G.length) (hab : a ≤ b) : (windowOf G 0 a b).length = b - a := by
  rw [windowOf_zero G a b hb, List.length_take, List.length_drop]
  omega

theorem windowOf_shift {γ : Type} (G : List γ) (s x y : ℕ) :
    windowOf G 0 (s + x) (s + y) = windowOf (G.drop s) 0 x y := by
  unfold windowOf
  have hd : (G.drop s).drop (x - 0) = G.drop (s + x - 0) := by
    rw [Nat.sub_zero, Nat.sub_zero, List.drop_drop]
    all_goals (congr 1; omega)
  rw [← hd]
  have htake : ∀ A B : ℕ, A = B → ∀ l : List γ, l.take A = l.take B := by
    intro A B h l
    rw [h]
  apply htake
  simp only [List.length_drop, Nat.zero_add, Nat.max_zero]
  omega

/-- Consecutive windows delimited by `c` tile the whole list. -/
theorem flatten_windows_tile {γ : Type} (c : List ℕ) :
    ∀ G : List γ, c.sum = G.length →
      ((List.range c.length).map (fun k =>
        windowOf G 0 (pre c k) (pre c (k + 1)))).flatten = G := by
  induction c with
  | nil =>
    intro G h
    simp only [List.sum_nil] at h
    have : G = [] := List.length_eq_zero.mp h.symm
    simp [this]
  | cons s rest ih =>
    intro G h
    simp only [List.sum_cons] at h
    rw [List.length_cons, List.range_succ_eq_map]
    simp only [List.map_cons, List.map_map, List.flatten_cons]
    have e1 : windowOf G 0 (pre (s :: rest) 0) (pre (s :: rest) 1) = G.take s := by
      have hp1 : pre (s :: rest) 1 = s := by
        rw [pre_cons]
        simp [pre_zero]
      rw [show pre (s :: rest) 0 = 0 from rfl, hp1]
      unfold windowOf
      simp only [Nat.sub_zero, List.drop_zero, Nat.zero_add]
      rw [show max 0 0 = 0 from rfl, Nat.sub_zero, List.take_eq_take]
      omega
    have e2 : List.map
        ((fun k => windowOf G 0 (pre (s :: rest) k) (pre (s :: rest) (k + 1))) ∘
          Nat.succ) (List.range rest.length) =
        List.map (fun k => windowOf (G.drop s) 0 (pre rest k) (pre rest (k + 1)))
          (List.range rest.length) := by
      apply List.map_congr_left
      intro k _
      simp only [Function.comp_apply, Nat.succ_eq_add_one]
      rw [pre_cons, pre_cons, windowOf_shift]
    rw [e1, e2, ih (G.drop s) (by rw [List.length_drop]; omega)]
    exact List.take_append_drop s G

theorem map_getD_range {γ : Type} (l : List γ) (d : γ) :
    (List.range l.length).map (fun k => l.getD k d) = l := by
  induction l with
  | nil => rfl
  | cons x rest ih =>
    rw [List.length_cons, List.range_succ_eq_map, List.map_cons, List.map_map]
    simp only [List.getD_cons_zero]
    have : ((fun k => (x :: rest).getD k d) ∘ Nat.succ) = fun k => rest.getD k d := by
      funext k
      simp [List.getD_cons_succ]
    rw [this, ih]

/-- The caller-buffer contents after `redistribute`: rank `k` holds
exactly the window of the concatenated buckets over its own original
range (the received blocks fill the whole buffer, leaving no tail). -/
theorem redistribute_eq (bs segs : List (List α))
    (hsum : (bs.map List.length).sum = (segs.map List.length).sum) :
    redistribute bs segs =
      (List.range segs.length).map (fun k =>
        windowOf bs.flatten 0 (pre (segs.map List.length) k)
          (pre (segs.map List.length) (k + 1))) := by
  unfold redistribute
  apply List.map_congr_left
  intro k hk
  dsimp only
  have hkm : k < segs.length := List.mem_range.mp hk
  have hkS : k ≤ (segs.map List.length).length := by
    rw [List.length_map]
    omega
  rw [received_eq bs (segs.map List.length) k hkS]
  have hb : pre (segs.map List.length) (k + 1) ≤ bs.flatten.length := by
    rw [List.length_flatten, hsum]
    exact pre_le_sum _ _
  have hblen := windowOf_zero_length bs.flatten (pre (segs.map List.length) k)
    (pre (segs.map List.length) (k + 1)) hb (pre_mono _ k)
  have hseg : (segs.getD k []).length =
      pre (segs.map List.length) (k + 1) - pre (segs.map List.length) k := by
    rw [pre_succ, getD_map_length segs k hkm]
    omega
  rw [hblen, List.drop_eq_nil_of_le (by omega), List.append_nil]

/-- Count preservation of the redistribution: the per-rank sizes after
`redistribute` are the original sizes. -/
theorem redistribute_lengths (bs segs : List (List α))
    (hsum : (bs.map List.length).sum = (segs.map List.length).sum) :
    (redistribute bs segs).map List.length = segs.map List.length := by
  rw [redistribute_eq bs segs hsum, List.map_map]
  have hc : List.map (List.length ∘ fun k =>
      windowOf bs.flatten 0 (pre (segs.map List.length) k)
        (pre (segs.map List.length) (k + 1))) (List.range segs.length) =
      List.map (fun k => (segs.map List.length).getD k 0)
        (List.range segs.length) := by
    apply List.map_congr_left
    intro k hk
    have hkm : k < segs.length := List.mem_range.mp hk
    have hb : pre (segs.map List.length) (k + 1) ≤ bs.flatten.length := by
      rw [List.length_flatten, hsum]
      exact pre_le_sum _ _
    simp only [Function.comp_apply]
    rw [windowOf_zero_length bs.flatten _ _ hb (pre_mono _ k), pre_succ]
    omega
  rw [hc]
  rw [show segs.length = (segs.map List.length).length from (List.length_map _ _).symm]
  exact map_getD_range (segs.map List.length) 0

/-- The redistributed segments, concatenated in rank order, are exactly
the concatenated sorted buckets. -/
theorem redistribute_flatten (bs segs : List (List α))
    (hsum : (bs.map List.length).sum = (segs.map List.length).sum) :
    (redistribute bs segs).flatten = bs.flatten := by
  rw [redistribute_eq bs segs hsum]
  rw [show segs.length = (segs.map List.length).length from (List.length_map _ _).symm]
  exact flatten_windows_tile (segs.map List.length) bs.flatten
    (by rw [← hsum, List.length_flatten])

/-! ## Global bucket lemmas -/

theorem sum_map_add {γ : Type} (l : List γ) (f g : γ → ℕ) :
    (l.map (fun x => f x + g x)).sum = (l.map f).sum + (l.map g).sum := by
  induction l with
  | nil => rfl
  | cons a t ih =>
    simp only [List.map_cons, List.sum_cons, ih]
    omega

/-- Exchange the two summations of a rectangular double sum. -/
theorem sum_sum_swap {γ : Type} (n : ℕ) (segs : List γ) (f : ℕ → γ → ℕ) :
    ((List.range n).map (fun i => (segs.map (f i)).sum)).sum =
      (segs.map (fun x => ((List.range n).map (fun i => f i x)).sum)).sum := by
  induction segs with
  | nil => simp
  | cons x t ih =>
    simp only [List.map_cons, List.sum_cons]
    rw [sum_map_add (List.range n) (fun i => f i x) (fun i => (t.map (f i)).sum), ih]

/-- Count invariance of the bucket exchange: the bucket sizes over all
ranks sum to the total element count (`N`). -/
theorem buckets_length_sum (segs : List (List α)) (sp : List α)
    (hP : segs.length = sp.length + 1) :
    ((buckets segs sp).map List.length).sum = (segs.map List.length).sum := by
  unfold buckets
  rw [List.map_map]
  have hc : List.map (List.length ∘ fun i =>
      (segs.map (fun xs => (chunks xs sp).getD i [])).flatten)
        (List.range segs.length) =
      List.map (fun i => (segs.map (fun xs => ((chunks xs sp).getD i []).length)).sum)
        (List.range segs.length) := by
    apply List.map_congr_left
    intro i _
    simp only [Function.comp_apply, List.length_flatten, List.map_map]
    rfl
  rw [hc, sum_sum_swap segs.length segs (fun i xs => ((chunks xs sp).getD i []).length)]
  have hxs : ∀ xs ∈ segs,
      ((List.range segs.length).map (fun i => ((chunks xs sp).getD i []).length)).sum =
        xs.length := by
    intro xs _
    rw [hP, ← chunks_length xs sp]
    have hgr := map_getD_range (chunks xs sp) []
    calc ((List.range (chunks xs sp).length).map
          (fun i => ((chunks xs sp).getD i []).length)).sum
        = (((List.range (chunks xs sp).length).map
            (fun i => (chunks xs sp).getD i [])).map List.length).sum := by
          rw [List.map_map]
          rfl
      _ = ((chunks xs sp).map List.length).sum := by rw [hgr]
      _ = xs.length := by rw [← List.length_flatten, chunks_flatten]
  rw [List.map_congr_left hxs]

theorem localSort_perm (l : List α) : localSort l ~ l :=
  List.perm_insertionSort _ l

theorem localSort_sorted (l : List α) : (localSort l).Sorted (· ≤ ·) :=
  List.sorted_insertionSort _ l

theorem localSort_length (l : List α) : (localSort l).length = l.length :=
  (localSort_perm l).length_eq

theorem flatten_map_localSort_perm (L : List (List α)) :
    (L.map localSort).flatten ~ L.flatten := by
  induction L with
  | nil => exact List.Perm.refl _
  | cons l t ih =>
    simp only [List.map_cons, List.flatten_cons]
    exact (localSort_perm l).append ih

theorem flatten_map_append_perm {γ δ : Type} (l : List γ) (f g : γ → List δ) :
    (l.map (fun x => f x ++ g x)).flatten ~ (l.map f).flatten ++ (l.map g).flatten := by
  induction l with
  | nil => exact List.Perm.refl _
  | cons a t ih =>
    simp only [List.map_cons, List.flatten_cons]
    calc (f a ++ g a) ++ (t.map (fun x => f x ++ g x)).flatten
        ~ (f a ++ g a) ++ ((t.map f).flatten ++ (t.map g).flatten) :=
          List.Perm.append_left _ ih
      _ = f a ++ (g a ++ ((t.map f).flatten ++ (t.map g).flatten)) := by
          rw [List.append_assoc]
      _ ~ f a ++ ((t.map f).flatten ++ (g a ++ (t.map g).flatten)) :=
          List.Perm.append_left _ (List.perm_append_comm_assoc _ _ _)
      _ = (f a ++ (t.map f).flatten) ++ (g a ++ (t.map g).flatten) := by
          rw [List.append_assoc]

theorem flatten_map_nil {γ δ : Type} (l : List γ) :
    (l.map (fun _ => ([] : List δ))).flatten = [] := by
  induction l with
  | nil => rfl
  | cons a t ih => simp [ih]

/-- Collecting the entries of a list of blocks by index (with default
`[]` past the end) and concatenating gives the concatenation. -/
theorem flatten_map_getD_range {γ : Type} (L : List (List γ)) :
    ∀ n : ℕ, L.length ≤ n →
      ((List.range n).map (fun i => L.getD i [])).flatten = L.flatten := by
  induction L with
  | nil =>
    intro n _
    have : ∀ i, ([] : List (List γ)).getD i [] = [] := by
      intro i
      cases i <;> rfl
    rw [List.map_congr_left (fun i _ => this i), flatten_map_nil, List.flatten_nil]
  | cons x t ih =>
    intro n hn
    cases n with
    | zero => simp at hn
    | succ m =>
      rw [List.range_succ_eq_map, List.map_cons, List.map_map, List.flatten_cons,
        List.getD_cons_zero, List.flatten_cons]
      have hc : List.map ((fun i => (x :: t).getD i []) ∘ Nat.succ) (List.range m) =
          List.map (fun i => t.getD i []) (List.range m) := by
        apply List.map_congr_left
        intro i _
        simp [List.getD_cons_succ]
      rw [hc, ih m (by simpa using hn)]

/-- Regrouping: the buckets over all ranks, concatenated, are a
permutation of the original segments, concatenated (the exchange only
moves elements between ranks, collecting the `i`-th chunk of every
rank). -/
theorem buckets_flatten_perm (segs : List (List α)) (sp : List α)
    (hP : segs.length = sp.length + 1) :
    (buckets segs sp).flatten ~ segs.flatten := by
  unfold buckets
  have key : ∀ (t : List (List α)) (n : ℕ), (∀ xs ∈ t, (chunks xs sp).length ≤ n) →
      ((List.range n).map
        (fun i => (t.map (fun xs => (chunks xs sp).getD i [])).flatten)).flatten ~
        t.flatten := by
    intro t
    induction t with
    | nil =>
      intro n _
      simp only [List.map_nil, List.flatten_nil]
      rw [flatten_map_nil]
    | cons xs t ih =>
      intro n hn
      have hc : List.map
          (fun i => ((xs :: t).map (fun ys => (chunks ys sp).getD i [])).flatten)
            (List.range n) =
          List.map (fun i => (chunks xs sp).getD i [] ++
            (t.map (fun ys => (chunks ys sp).getD i [])).flatten) (List.range n) := by
        apply List.map_congr_left
        intro i _
        simp [List.map_cons, List.flatten_cons]
      rw [hc]
      calc (List.map (fun i => (chunks xs sp).getD i [] ++
            (t.map (fun ys => (chunks ys sp).getD i [])).flatten)
              (List.range n)).flatten
          ~ ((List.range n).map (fun i => (chunks xs sp).getD i [])).flatten ++
            ((List.range n).map (fun i =>
              (t.map (fun ys => (chunks ys sp).getD i [])).flatten)).flatten :=
            flatten_map_append_perm _ _ _
        _ ~ xs ++ t.flatten := by
            apply List.Perm.append
            · rw [flatten_map_getD_range (chunks xs sp) n
                (hn xs (List.mem_cons_self xs t)), chunks_flatten]
            · exact ih n (fun ys hy => hn ys (List.mem_cons_of_mem xs hy))
        _ = (xs :: t).flatten := by rw [List.flatten_cons]
  exact key segs segs.length
    (fun xs _ => by rw [chunks_length]; omega)

/-! ## Sortedness of the exchanged buckets -/

theorem sorted_flatten {L : List (List α)} (h1 : ∀ l ∈ L, l.Sorted (· ≤ ·))
    (h2 : L.Pairwise (fun u v => ∀ x ∈ u, ∀ y ∈ v, x ≤ y)) :
    L.flatten.Sorted (· ≤ ·) := by
  induction L with
  | nil => exact List.sorted_nil
  | cons l t ih =>
    rw [List.flatten_cons]
    show (l ++ t.flatten).Pairwise (· ≤ ·)
    rw [List.pairwise_append]
    obtain ⟨hrel, h2t⟩ := List.pairwise_cons.mp h2
    refine ⟨h1 l (List.mem_cons_self l t),
      ih (fun u hu => h1 u (List.mem_cons_of_mem _ hu)) h2t, ?_⟩
    intro x hx y hy
    rcases List.mem_flatten.mp hy with ⟨v, hv, hyv⟩
    exact hrel v hv x hx y hyv

/-- Cross-bucket order: elements of bucket `i` never exceed elements of
bucket `j` for `i < j` (segments sorted; any splitter vector). -/
theorem buckets_cross (segs : List (List α)) (sp : List α)
    (hsegs : ∀ l ∈ segs, l.Sorted (· ≤ ·)) {i j : ℕ} (hij : i < j)
    {x y : α} (hx : x ∈ (segs.map (fun xs => (chunks xs sp).getD i [])).flatten)
    (hy : y ∈ (segs.map (fun xs => (chunks xs sp).getD j [])).flatten) : x ≤ y := by
  rcases List.mem_flatten.mp hx with ⟨u, hu, hxu⟩
  rcases List.mem_map.mp hu with ⟨xs, hxs, rfl⟩
  rcases List.mem_flatten.mp hy with ⟨v, hv, hyv⟩
  rcases List.mem_map.mp hv with ⟨ys, hys, rfl⟩
  have hdx : bucket_dest sp x = i := bucket_dest_of_mem_chunks (hsegs xs hxs) hxu
  have hdy : bucket_dest sp y = j := bucket_dest_of_mem_chunks (hsegs ys hys) hyv
  rw [← hdx, ← hdy] at hij
  exact le_of_bucket_dest_lt hij

/-- After the bucket sort, the buckets concatenated in rank order form a
globally sorted sequence. -/
theorem sorted_buckets_flatten (segs : List (List α)) (sp : List α)
    (hsegs : ∀ l ∈ segs, l.Sorted (· ≤ ·)) :
    (((buckets segs sp).map localSort).flatten).Sorted (· ≤ ·) := by
  apply sorted_flatten
  · intro l hl
    rcases List.mem_map.mp hl with ⟨b, _, rfl⟩
    exact localSort_sorted b
  · rw [List.pairwise_map]
    unfold buckets
    rw [List.pairwise_map]
    exact (List.pairwise_lt_range segs.length).imp
      (fun hij x hx y hy => by
        rw [(localSort_perm _).mem_iff] at hx hy
        exact buckets_cross segs sp hsegs hij hx hy)

/-! ## The pipeline backbone -/

theorem samplePosAux_length (jump lo : ℕ) :
    ∀ (fuel pos i : ℕ), (samplePosAux jump lo pos i fuel).length = fuel := by
  intro fuel
  induction fuel with
  | zero => intro pos i; rfl
  | succ f ih =>
    intro pos i
    simp [samplePosAux, ih]

theorem mapO_length {γ δ : Type} (f : γ → Option δ) :
    ∀ {l : List γ} {r : List δ}, mapO f l = some r → r.length = l.length := by
  intro l
  induction l with
  | nil =>
    intro r h
    simp only [mapO, Option.some.injEq] at h
    subst h
    rfl
  | cons a t ih =>
    intro r h
    cases hfa : f a with
    | none => simp [mapO, hfa] at h
    | some b =>
      cases hmt : mapO f t with
      | none => simp [mapO, hfa, hmt] at h
      | some bs =>
        simp only [mapO, hfa, hmt, Option.some.injEq] at h
        rw [← h]
        simp only [List.length_cons, ih hmt]

theorem get_splitters_length [Inhabited α] {segs : List (List α)} {sp : List α}
    (h : get_splitters segs = some sp) : sp.length = segs.length - 1 := by
  unfold get_splitters at h
  dsimp only at h
  cases hm : mapO (fun xs => localSamples xs segs.length) segs with
  | none => rw [hm] at h; simp at h
  | some samples =>
    rw [hm] at h
    have := mapO_length _ h
    rw [this]
    unfold coordPositions
    exact samplePosAux_length _ _ _ _ _

theorem samplesort_le_one [Inhabited α] (procs : List (List α))
    (hP : procs.length ≤ 1) : samplesort procs = some (procs.map localSort) := by
  unfold samplesort
  rw [if_pos hP]

theorem samplesort_eq_of_some [Inhabited α] {procs out : List (List α)}
    (h : samplesort procs = some out) (hP : ¬ procs.length ≤ 1) :
    ∃ sp : List α, get_splitters (procs.map localSort) = some sp ∧
      sp.length = procs.length - 1 ∧
      out = redistribute ((buckets (procs.map localSort) sp).map localSort)
        (procs.map localSort) := by
  unfold samplesort at h
  rw [if_neg hP] at h
  cases hsp : get_splitters (procs.map localSort) with
  | none => rw [hsp] at h; simp at h
  | some sp =>
    rw [hsp] at h
    simp only [Option.some.injEq] at h
    refine ⟨sp, rfl, ?_, h.symm⟩
    have := get_splitters_length hsp
    rw [List.length_map] at this
    exact this

/-- Sizes of the sorted buckets over all ranks sum to `N`. -/
theorem sortedBuckets_sum (segs : List (List α)) (sp : List α)
    (hP : segs.length = sp.length + 1) :
    (((buckets segs sp).map localSort).map List.length).sum =
      (segs.map List.length).sum := by
  have e : ((buckets segs sp).map localSort).map List.length
      = (buckets segs sp).map List.length := by
    rw [List.map_map]
    exact List.map_congr_left (fun l _ => localSort_length l)
  rw [e]
  exact buckets_length_sum segs sp hP

/-- Whenever `samplesort` returns, per-rank sizes are preserved. -/
theorem samplesort_some_map_length [Inhabited α] {procs out : List (List α)}
    (h : samplesort procs = some out) :
    out.map List.length = procs.map List.length := by
  by_cases hP : procs.length ≤ 1
  · rw [samplesort_le_one procs hP] at h
    simp only [Option.some.injEq] at h
    rw [← h, List.map_map]
    exact List.map_congr_left (fun l _ => localSort_length l)
  · obtain ⟨sp, hsp, hlen, rfl⟩ := samplesort_eq_of_some h hP
    have hPP : (procs.map localSort).length = sp.length + 1 := by
      rw [List.length_map]
      omega
    rw [redistribute_lengths _ _ (by
      rw [sortedBuckets_sum (procs.map localSort) sp hPP])]
    rw [List.map_map]
    exact List.map_congr_left (fun l _ => localSort_length l)

/-- Whenever `samplesort` returns, the concatenation of the per-rank
results in rank order is sorted. -/
theorem samplesort_some_sorted [Inhabited α] {procs out : List (List α)}
    (h : samplesort procs = some out) : out.flatten.Sorted (· ≤ ·) := by
  by_cases hP : procs.length ≤ 1
  · rw [samplesort_le_one procs hP] at h
    simp only [Option.some.injEq] at h
    rw [← h]
    cases procs with
    | nil => exact List.sorted_nil
    | cons l t =>
      have ht : t = [] := by
        simp only [List.length_cons] at hP
        have : t.length = 0 := by omega
        exact List.length_eq_zero.mp this
      subst ht
      simp only [List.map_cons, List.map_nil, List.flatten_cons, List.flatten_nil,
        List.append_nil]
      exact localSort_sorted l
  · obtain ⟨sp, hsp, hlen, rfl⟩ := samplesort_eq_of_some h hP
    have hPP : (procs.map localSort).length = sp.length + 1 := by
      rw [List.length_map]
      omega
    rw [redistribute_flatten _ _ (by
      rw [sortedBuckets_sum (procs.map localSort) sp hPP])]
    apply sorted_buckets_flatten
    intro l hl
    rcases List.mem_map.mp hl with ⟨xs, _, rfl⟩
    exact localSort_sorted xs

/-- Whenever `samplesort` returns, the global multiset of elements is
preserved. -/
theorem samplesort_some_perm [Inhabited α] {procs out : List (List α)}
    (h : samplesort procs = some out) : out.flatten ~ procs.flatten := by
  by_cases hP : procs.length ≤ 1
  · rw [samplesort_le_one procs hP] at h
    simp only [Option.some.injEq] at h
    rw [← h]
    exact flatten_map_localSort_perm procs
  · obtain ⟨sp, hsp, hlen, rfl⟩ := samplesort_eq_of_some h hP
    have hPP : (procs.map localSort).length = sp.length + 1 := by
      rw [List.length_map]
      omega
    rw [redistribute_flatten _ _ (by
      rw [sortedBuckets_sum (procs.map localSort) sp hPP])]
    calc (((buckets (procs.map localSort) sp).map localSort)).flatten
        ~ (buckets (procs.map localSort) sp).flatten :=
          flatten_map_localSort_perm _
      _ ~ (procs.map localSort).flatten := buckets_flatten_perm _ sp hPP
      _ ~ procs.flatten := flatten_map_localSort_perm procs

/-! ## Claim theorems -/

/-- C1: for every number of participants and every distribution of
elements across them, after `samplesort` returns on every participant,
concatenating all participants' local segments in rank order yields a
sequence sorted non-decreasingly by the comparator. -/
theorem C1_total_order (procs out : List (List ℕ))
    (h : samplesort procs = some out) : out.flatten.Sorted (· ≤ ·) :=
  samplesort_some_sorted h

/-- Witness for C1: a concrete 2-participant run. -/
theorem C1_total_order_witness :
    ([[0, 1], [2, 3]] : List (List ℕ)).flatten.Sorted (· ≤ ·) :=
  C1_total_order [[3, 1], [2, 0]] [[0, 1], [2, 3]] (by decide)

/-- C2: the receive counts `redistribute` computes from the interval
overlaps sum exactly to the original segment size
`std::distance(begin, end)` (first conjunct), so whenever `samplesort`
returns, every participant's segment has exactly the size it had before
the call (second conjunct). -/
theorem C2_count_preservation :
    (∀ (oS bS : List ℕ) (k : ℕ), k < oS.length → bS.sum = oS.sum →
      ((List.range bS.length).map (recvCountR oS bS k)).sum = oS.getD k 0) ∧
    (∀ procs out : List (List ℕ), samplesort procs = some out →
      out.map List.length = procs.map List.length) :=
  ⟨fun oS bS k hk hsum => recvCount_sum oS bS k hk hsum,
   fun _ _ h => samplesort_some_map_length h⟩

/-- Witness for C2: receive counts of a concrete layout, and the sizes
of a concrete run. -/
theorem C2_count_preservation_witness :
    ((List.range ([0, 3] : List ℕ).length).map (recvCountR [1, 2] [0, 3] 0)).sum =
      ([1, 2] : List ℕ).getD 0 0 ∧
    ([[5], [6, 7]] : List (List ℕ)).map List.length =
      ([[7], [5, 6]] : List (List ℕ)).map List.length :=
  ⟨C2_count_preservation.1 [1, 2] [0, 3] 0 (by decide) (by decide),
   C2_count_preservation.2 [[7], [5, 6]] [[5], [6, 7]] (by decide)⟩

/-- C3: for ranges with `l ≤ r`, `interval_overlap` is symmetric in
argument order, returns 0 for disjoint ranges and
`min r1 r2 - max l1 l2` for intersecting ranges. -/
theorem C3_interval_overlap (l1 r1 l2 r2 : ℕ) (h1 : l1 ≤ r1) (h2 : l2 ≤ r2) :
    interval_overlap l1 r1 l2 r2 = interval_overlap l2 r2 l1 r1 ∧
    (min r1 r2 ≤ max l1 l2 → interval_overlap l1 r1 l2 r2 = 0) ∧
    (max l1 l2 < min r1 r2 →
      interval_overlap l1 r1 l2 r2 = min r1 r2 - max l1 l2) := by
  refine ⟨?_, ?_, ?_⟩
  · rw [interval_overlap_eq h1 h2, interval_overlap_eq h2 h1,
      Nat.min_comm, Nat.max_comm]
  · intro hd
    rw [interval_overlap_eq h1 h2]
    omega
  · intro _
    exact interval_overlap_eq h1 h2

/-- Witness for C3 at concrete intersecting ranges. -/
theorem C3_interval_overlap_witness :
    interval_overlap 1 4 2 6 = interval_overlap 2 6 1 4 ∧
    (min 4 6 ≤ max 1 2 → interval_overlap 1 4 2 6 = 0) ∧
    (max 1 2 < min 4 6 → interval_overlap 1 4 2 6 = min 4 6 - max 1 2) :=
  C3_interval_overlap 1 4 2 6 (by decide) (by decide)

/-- C4: with 2 participants and an empty local segment, the first
sampling iteration leaves `s_pos = begin`, the assertion
`begin <= s_pos-1 && s_pos-1 < end` fails and the loop would read
`begin[-1]`: the embedded sampling loop reports the out-of-range read
instead of returning samples, so `samplesort` does crash on empty local
inputs (contradicting the spec's "must not crash"). -/
theorem C4_empty_segment_crash : localSamples ([] : List ℕ) 2 = none := rfl

/-- C5 counterexample: four per-peer receive counts of `2^30` (each
fits `int`) make the `bucket_size` arithmetic wrap silently to 0
instead of the true total `2^32`; nothing in the computation checks or
fails. -/
theorem C5_no_capacity_check_counterexample :
    bucket_size [2 ^ 30, 2 ^ 30, 2 ^ 30, 2 ^ 30] = 0 ∧
      ((2 : ℤ) ^ 30 + 2 ^ 30 + 2 ^ 30 + 2 ^ 30) ≠ 0 := by
  constructor
  · decide
  · decide

/-- C5 amended: the implementation performs no capacity check before
its collective calls; under the documented assumption (nonnegative
counts totalling below `2^31`) the size arithmetic is exact, and beyond
it the arithmetic silently wraps (see the counterexample). -/
theorem C5_bucket_size_exact_under_assumption (arr : List ℤ)
    (hnn : ∀ a ∈ arr, 0 ≤ a) (hlt : arr.sum < 2 ^ 31) :
    bucket_size arr = arr.sum :=
  bucketSize_exact arr hnn hlt

/-- Witness for the amended C5. -/
theorem C5_bucket_size_exact_witness :
    bucket_size [1, 2, 3] = ([1, 2, 3] : List ℤ).sum :=
  C5_bucket_size_exact_under_assumption [1, 2, 3] (by decide) (by decide)

/-- C6: on a locally sorted segment, bucket `i`'s count is the number
of elements whose smallest strictly-greater splitter (under the
comparator) has index `i` — elements not strictly below the last
splitter land in the final bucket `P−1` = `sp.length`; the buckets are
the consecutive chunks of the segment (so contiguous sub-ranges), and
the `P` counts sum to the segment size. -/
theorem C6_bucket_assignment (xs sp : List ℕ) (hs : xs.Sorted (· ≤ ·)) :
    send_split_counts xs sp =
      (List.range (sp.length + 1)).map
        (fun i => xs.countP (fun x => decide (bucket_dest sp x = i))) ∧
    send_split_counts xs sp = (chunks xs sp).map List.length ∧
    (send_split_counts xs sp).sum = xs.length :=
  ⟨send_split_counts_countP sp hs, send_split_counts_eq xs sp,
   sum_send_split_counts xs sp⟩

/-- Witness for C6 at a concrete sorted segment and splitters. -/
theorem C6_bucket_assignment_witness :
    send_split_counts [0, 1, 2, 3] [2] =
      (List.range (([2] : List ℕ).length + 1)).map
        (fun i => ([0, 1, 2, 3] : List ℕ).countP
          (fun x => decide (bucket_dest [2] x = i))) ∧
    send_split_counts [0, 1, 2, 3] [2] =
      (chunks [0, 1, 2, 3] [2]).map List.length ∧
    (send_split_counts ([0, 1, 2, 3] : List ℕ) [2]).sum =
      ([0, 1, 2, 3] : List ℕ).length :=
  C6_bucket_assignment [0, 1, 2, 3] [2] (by decide)

/-- C7: each rank reads its `i`-th of `P−1` local samples at offset
`(i+1)·(n/P) + min (i+1) (n mod P) − 1` of its sorted segment
(cumulative steps of `n/P`, one extra for the earliest `n mod P`
slots), and the coordinator reads the `i`-th global splitter at index
`(i+1)·(P−1) − 1` of the sorted gathered samples. -/
theorem C7_sampling_positions (n p : ℕ) :
    (samplePositions n p).map (fun pos => pos - 1) =
      (List.range (p - 1)).map
        (fun i => (i + 1) * (n / p) + min (i + 1) (n % p) - 1) ∧
    (coordPositions p).map (fun pos => pos - 1) =
      (List.range (p - 1)).map (fun i => (i + 1) * (p - 1) - 1) := by
  constructor
  · rw [samplePositions_eq, List.map_map]
    rfl
  · rw [coordPositions_eq, List.map_map]
    rfl

/-- C8: the count invariant `N`: the bucket sizes over all ranks after
the exchange sum to the total element count (first conjunct), and
whenever `samplesort` returns, the per-rank sizes sum to the same total
again (second conjunct); before splitter selection the sum is `N` by
definition of the distribution. -/
theorem C8_count_invariant :
    (∀ (segs : List (List ℕ)) (sp : List ℕ), segs.length = sp.length + 1 →
      ((buckets segs sp).map List.length).sum = (segs.map List.length).sum) ∧
    (∀ procs out : List (List ℕ), samplesort procs = some out →
      (out.map List.length).sum = (procs.map List.length).sum) :=
  ⟨fun segs sp h => buckets_length_sum segs sp h,
   fun _ _ h => by rw [samplesort_some_map_length h]⟩

/-- Witness for C8 at a concrete exchange and a concrete run. -/
theorem C8_count_invariant_witness :
    ((buckets [[1, 3], [0, 2]] [0]).map List.length).sum =
      (([[1, 3], [0, 2]] : List (List ℕ)).map List.length).sum ∧
    (([[0, 1], [2, 3]] : List (List ℕ)).map List.length).sum =
      (([[1, 0], [3, 2]] : List (List ℕ)).map List.length).sum :=
  ⟨C8_count_invariant.1 [[1, 3], [0, 2]] [0] (by decide),
   C8_count_invariant.2 [[1, 0], [3, 2]] [[0, 1], [2, 3]] (by decide)⟩

/-- C9: with `P ≤ 1` participant, `samplesort` returns right after the
local sort: it is exactly a pure local sort of the single segment and
reaches none of the communication or buffer-allocating code. -/
theorem C9_single_participant (procs : List (List ℕ))
    (hP : procs.length ≤ 1) : samplesort procs = some (procs.map localSort) :=
  samplesort_le_one procs hP

/-- Witness for C9 with one participant. -/
theorem C9_single_participant_witness :
    samplesort [[2, 1, 0]] = some (([[2, 1, 0]] : List (List ℕ)).map localSort) :=
  C9_single_participant [[2, 1, 0]] (by decide)

/-- C10: whenever `samplesort` returns, the multiset of elements held
across all participants equals the multiset before the call: every
stage only permutes and moves elements between processes. -/
theorem C10_multiset_preserved (procs out : List (List ℕ))
    (h : samplesort procs = some out) : out.flatten ~ procs.flatten :=
  samplesort_some_perm h

/-- Witness for C10: a concrete run with duplicates. -/
theorem C10_multiset_preserved_witness :
    ([[1, 2], [2]] : List (List ℕ)).flatten ~
      ([[2, 2], [1]] : List (List ℕ)).flatten :=
  C10_multiset_preserved [[2, 2], [1]] [[1, 2], [2]] (by decide)

end SSort
